import Mathlib

/-!
Verification of `transcribe.py`, a batch audio-transcription script.

The script is embedded shallowly:

* Pure helpers (`format_time`, the progress arithmetic) become Lean functions
  on `Nat` / `ℚ`; Python `int(...)` truncation toward zero is `pyInt`.
* Fallible external effects are explicit parameters: the ffprobe invocation
  becomes `Option ℚ` (`some v` when the process ran and its stdout parsed as a
  float, `none` for any failure caught by the bare `except`), `Path.stat()`
  becomes `Option Nat` (`none` when the path does not exist and `stat` raises
  `OSError`), and the presence of the `osascript` binary is a field of
  `NotifyEnv` (Python's `subprocess.run` raises `FileNotFoundError` when the
  executable is absent; with `capture_output=True` and no `check=True` a
  non-zero exit status is ignored).
* Directories are association lists from file name to content; `write_text`
  and `shutil.move` replace an existing entry of the same name and append a
  fresh name (`assocSet`).
* The per-file orchestration loop of `main` is `runBatch`; an uncaught engine
  exception is the `some`-error component of its result, and the state at the
  moment of the raise is the surviving filesystem.
-/

namespace Transcribe

/-- Decidable equality for `Except`, used so that concrete engine results can
be compared by `decide`. -/
instance instDecEqExcept {ε α : Type} [DecidableEq ε] [DecidableEq α] :
    DecidableEq (Except ε α) := fun a b =>
  match a, b with
  | Except.ok x, Except.ok y =>
    if h : x = y then isTrue (by rw [h]) else isFalse (fun hc => h (Except.ok.inj hc))
  | Except.error x, Except.error y =>
    if h : x = y then isTrue (by rw [h]) else isFalse (fun hc => h (Except.error.inj hc))
  | Except.ok _, Except.error _ => isFalse (fun hc => Except.noConfusion hc)
  | Except.error _, Except.ok _ => isFalse (fun hc => Except.noConfusion hc)

/-- The supported extension set `AUDIO_EXTENSIONS` (transcribe.py line 24). -/
def AUDIO_EXTENSIONS : List String :=
  [".wav", ".mp3", ".m4a", ".flac", ".ogg", ".webm", ".opus"]

/-- Python's `str.lower()` restricted to what the script compares:
character-wise lowercasing of the extension string. -/
def lowerString (s : String) : String := String.mk (s.data.map Char.toLower)

/-- Python's zero-padding format spec of width 2 applied to a natural number
(the script formats `mins` and `secs`, both non-negative). -/
def pad2 (n : Nat) : String := if n < 10 then "0" ++ toString n else toString n

/-- `format_time` (transcribe.py lines 38-41):
`mins, secs = divmod(int(seconds), 60)` rendered as two zero-padded fields
joined by a colon.  The script's callers pass non-negative values
(tick counts and probed durations), so the domain is `Nat`. -/
def format_time (seconds : Nat) : String :=
  let mins := seconds / 60
  let secs := seconds % 60
  pad2 mins ++ ":" ++ pad2 secs

/-- `get_audio_duration` (transcribe.py lines 44-56).  `probe` is the outcome
of the `try` block: `some v` when `subprocess.run` returned and
`float(result.stdout.strip())` parsed to `v`; `none` for any failure in the
`try` block (binary missing, non-zero exit with empty stdout, unparsable
output), all of which the bare `except` catches.  The fallback then reads
`file_path.stat().st_size`; that call sits inside the `except` handler and is
not protected by any handler, and `Path.stat` raises `OSError` when the path
does not exist, so the stat outcome is the second parameter. -/
def get_audio_duration (probe : Option ℚ) (statSize : Option Nat) : Except String ℚ :=
  match probe with
  | some v => Except.ok v
  | none =>
    match statSize with
    | some size => Except.ok ((size : ℚ) / (1024 * 1024) * 6)
    | none => Except.error "OSError"

/-- Environment of one `osascript` invocation: whether the binary exists on
PATH, and the exit status it would return. -/
structure NotifyEnv where
  osascriptPresent : Bool
  exitCode : Int
  deriving DecidableEq

/-- The AppleScript line built by `notify` (transcribe.py lines 33-34). -/
def notifyScript (title message : String) (sound : Bool) : String :=
  let sound_cmd := if sound then "sound name \"Glass\"" else ""
  "display notification \"" ++ message ++ "\" with title \"" ++ title ++ "\" " ++ sound_cmd

/-- `notify` (transcribe.py lines 31-35): `subprocess.run(["osascript", "-e",
script], capture_output=True)` with no surrounding handler.  Python's
`subprocess.run` returns normally on any exit status (no `check=True`), but
raises `FileNotFoundError` when the executable is absent, and `notify` does
not catch it. -/
def notify (title message : String) (sound : Bool) (env : NotifyEnv) : Except String Unit :=
  let _script := notifyScript title message sound
  if env.osascriptPresent then Except.ok () else Except.error "FileNotFoundError"

/-- Width of the progress bar, `bar_width` (transcribe.py line 61). -/
def bar_width : Nat := 30

/-- Python's `int(...)` applied to a float: truncation toward zero.  Floats
are embedded as rationals throughout. -/
def pyInt (q : ℚ) : Int := if 0 ≤ q then ⌊q⌋ else ⌈q⌉

/-- One line rendered by an iteration of the `while not stop_event.is_set()`
loop of `show_progress_bar` (transcribe.py lines 64-82): either a bar line
carrying the computed progress fraction, the integer percentage
`int(progress * 100)`, the filled-cell count `int(bar_width * progress)` and
the elapsed tick count, or a spinner line carrying the glyph index
`idx % 10` and the elapsed tick count. -/
inductive TickLine where
  | bar : ℚ → Int → Int → Nat → TickLine
  | spin : Nat → Nat → TickLine
  deriving DecidableEq

/-- The line rendered at tick `idx`: the bar branch is taken when
`estimated_seconds > 0`, with `progress = min(elapsed / estimated, 0.99)`. -/
def tickLine (idx : Nat) (est : ℚ) : TickLine :=
  if 0 < est then
    let progress := min ((idx : ℚ) / est) (99 / 100)
    TickLine.bar progress (pyInt (progress * 100)) (pyInt ((bar_width : ℚ) * progress)) idx
  else
    TickLine.spin (idx % 10) idx

/-- The single line emitted after the loop exits (transcribe.py lines 84-87):
a fully filled bar and the elapsed tick count rendered via `format_time`. -/
structure FinalLine where
  filledCount : Nat
  timeShown : String
  deriving DecidableEq

/-- The loop body of `show_progress_bar`: `ticks` is the number of iterations
the loop performs before it observes the stop signal; `idx` is the running
counter, incremented after each one-second sleep.  Returns the rendered lines
and the final value of `idx`. -/
def progressLoop (est : ℚ) : Nat → Nat → List TickLine × Nat
  | 0, idx => ([], idx)
  | Nat.succ n, idx =>
    let rest := progressLoop est n (idx + 1)
    (tickLine idx est :: rest.1, rest.2)

/-- `show_progress_bar` (transcribe.py lines 59-88) as a function of the
number of ticks before the stop signal is observed: the in-loop lines, the
one final line, and the returned tick count. -/
def show_progress_bar (ticks : Nat) (est : ℚ) : List TickLine × FinalLine × Nat :=
  let run := progressLoop est ticks 0
  (run.1, { filledCount := bar_width, timeShown := format_time run.2 }, run.2)

/-- An entry of the input directory: base name (`Path.stem`), extension with
its leading dot (`Path.suffix`), and size in bytes. -/
structure AFile where
  stem : String
  suffix : String
  size : Nat
  deriving DecidableEq

/-- `Path.name`: stem plus extension. -/
def fname (f : AFile) : String := f.stem ++ f.suffix

/-- The names present in a directory, modeled as an association list from
file name to content. -/
def keysOf {α : Type} (d : List (String × α)) : List String := d.map Prod.fst

/-- Writing a file at a name: a same-named entry is replaced in place (what
`Path.write_text` does, and what `shutil.move` onto an existing path does),
a fresh name is appended. -/
def assocSet {α : Type} (d : List (String × α)) (nm : String) (v : α) :
    List (String × α) :=
  if nm ∈ keysOf d then d.map (fun e => if e.1 = nm then (nm, v) else e)
  else d ++ [(nm, v)]

/-- The content stored under a name (first match). -/
def findVal {α : Type} (d : List (String × α)) (nm : String) : Option α :=
  match d with
  | [] => none
  | e :: rest => if e.1 = nm then some e.2 else findVal rest nm

/-- Destination name of the archive move (transcribe.py lines 171-175): on a
name clash, stem plus an underscore, the timestamp, and the extension. -/
def historicalDest (hist : List (String × AFile)) (f : AFile) (ts : String) : String :=
  if fname f ∈ keysOf hist then f.stem ++ "_" ++ ts ++ f.suffix else fname f

/-- The `shutil.move` into the archive directory (transcribe.py line 177),
performed after the single duplicate check: it replaces whatever entry
already sits at the destination name. -/
def moveToHistorical (hist : List (String × AFile)) (f : AFile) (ts : String) :
    List (String × AFile) :=
  assocSet hist (historicalDest hist f ts) f

/-- Writing the transcription output (transcribe.py lines 163-165):
`<stem>.txt` in the output directory receives the stripped text. -/
def writeTranscription (outputs : List (String × String)) (f : AFile) (rawText : String) :
    List (String × String) :=
  assocSet outputs (f.stem ++ ".txt") rawText.trim

/-- Observable side effects of `main`, in program order. -/
inductive Event where
  | loadModel : Event
  | notifyNoFiles : Event
  | notifyStart : Nat → Event
  | wrote : AFile → String → String → Event
  | archived : AFile → String → Event
  | notifySummary : Event
  | openFolder : Event
  deriving DecidableEq

/-- Filesystem and log state of a run: remaining files of the input
directory, the output directory, the archive directory, and the event log. -/
structure St where
  input : List AFile
  outputs : List (String × String)
  hist : List (String × AFile)
  log : List Event
  deriving DecidableEq

/-- One iteration of the orchestration loop after the engine returned
`rawText` for `f` (transcribe.py lines 163-178): write `<stem>.txt` with the
stripped text, move the original into the archive (renaming on collision with
the timestamp `ts f`), and remove it from the input directory. -/
def processFile (ts : AFile → String) (st : St) (f : AFile) (rawText : String) : St :=
  let outName := f.stem ++ ".txt"
  let text := rawText.trim
  let dest := historicalDest st.hist f (ts f)
  { input := st.input.erase f
    outputs := assocSet st.outputs outName text
    hist := assocSet st.hist dest f
    log := st.log ++ [Event.wrote f outName text, Event.archived f dest] }

/-- The per-file loop of `main` (transcribe.py lines 134-184).  `engine f` is
the outcome of `model.transcribe`: `Except.ok` with the recognized text, or
`Except.error` when the call raises.  The loop body has no handler, so an
error ends the run immediately; the state at that moment is returned beside
the error, since the files written and moved so far persist. -/
def runBatch (engine : AFile → Except String String) (ts : AFile → String) :
    List AFile → St → St × Option String
  | [], st => (st, none)
  | f :: rest, st =>
    match engine f with
    | Except.error e => (st, some e)
    | Except.ok t => runBatch engine ts rest (processFile ts st f t)

/-- Folding the per-file step over a run of files that all succeed, with
`txt f` the text the engine returns for `f`. -/
def procAll (ts txt : AFile → String) (l : List AFile) (st : St) : St :=
  l.foldl (fun s f => processFile ts s f (txt f)) st

/-- The discovery filter (transcribe.py lines 101-104): extension membership,
case-insensitive. -/
def isAudioFile (f : AFile) : Bool := AUDIO_EXTENSIONS.contains (lowerString f.suffix)

/-- Stable insertion into a name-sorted list, modelling Python's stable
`sorted` on the paths of one directory (which compares by file name there). -/
def insertByName (f : AFile) : List AFile → List AFile
  | [] => [f]
  | g :: rest => if fname f ≤ fname g then f :: g :: rest else g :: insertByName f rest

/-- Name-sorted insertion sort. -/
def sortByName (l : List AFile) : List AFile := l.foldr insertByName []

/-- File discovery: the supported files of the input directory, sorted. -/
def discover (dir : List AFile) : List AFile := sortByName (dir.filter isAudioFile)

/-- `main` (transcribe.py lines 91-206): with zero discovered files, print
the warning, fire the one "no files" notification and return; otherwise load
the model, notify the start, run the batch, and on success print the summary,
notify it and open the output folder.  An engine error propagates, so the
summary events never happen on a failed run. -/
def runMain (dir : List AFile) (engine : AFile → Except String String)
    (ts : AFile → String) : St × Option String :=
  if (discover dir).isEmpty then
    ({ input := dir, outputs := [], hist := [], log := [Event.notifyNoFiles] }, none)
  else
    match runBatch engine ts (discover dir)
        { input := dir, outputs := [], hist := [],
          log := [Event.loadModel, Event.notifyStart (discover dir).length] } with
    | (st, some e) => (st, some e)
    | (st, none) =>
      ({ st with log := st.log ++ [Event.notifySummary, Event.openFolder] }, none)

/-- Helper for C6: for any value the seconds field can take, `pad2` renders
exactly two characters. -/
theorem pad2_length_of_lt_60 : ∀ n, n < 60 → (pad2 n).length = 2 := by decide

/-- The loop returns its starting counter plus the number of iterations. -/
theorem progressLoop_snd (est : ℚ) : ∀ n idx, (progressLoop est n idx).2 = idx + n := by
  intro n
  induction n with
  | zero => intro idx; rfl
  | succ n ih =>
    intro idx
    show (progressLoop est n (idx + 1)).2 = idx + (n + 1)
    rw [ih (idx + 1)]
    omega

/-- The loop renders precisely the tick lines for indices `idx, idx+1, ...`. -/
theorem progressLoop_fst (est : ℚ) :
    ∀ n idx, (progressLoop est n idx).1 = (List.range n).map (fun j => tickLine (idx + j) est) := by
  intro n
  induction n with
  | zero => intro idx; rfl
  | succ n ih =>
    intro idx
    show tickLine idx est :: (progressLoop est n (idx + 1)).1 = _
    rw [ih (idx + 1), List.range_succ_eq_map, List.map_cons, List.map_map]
    refine congrArg₂ _ (by rw [Nat.add_zero]) (List.map_congr_left ?_)
    intro j _
    show tickLine (idx + 1 + j) est = tickLine (idx + Nat.succ j) est
    have harg : idx + 1 + j = idx + Nat.succ j := by omega
    rw [harg]

/-- Replacing the value at a name leaves the name list unchanged. -/
theorem keysOf_map_replace {α : Type} (d : List (String × α)) (nm : String) (v : α) :
    keysOf (d.map (fun e => if e.1 = nm then (nm, v) else e)) = keysOf d := by
  induction d with
  | nil => rfl
  | cons e rest ih =>
    show (if e.1 = nm then (nm, v) else e).1
        :: keysOf (rest.map (fun e => if e.1 = nm then (nm, v) else e))
      = e.1 :: keysOf rest
    have hh : (if e.1 = nm then (nm, v) else e).1 = e.1 := by
      by_cases h : e.1 = nm
      · rw [if_pos h]; exact h.symm
      · rw [if_neg h]
    rw [hh, ih]

/-- Names distribute over directory concatenation. -/
theorem keysOf_append {α : Type} (d l : List (String × α)) :
    keysOf (d ++ l) = keysOf d ++ keysOf l := by
  simp [keysOf]

/-- After a write, the written name is present. -/
theorem mem_keys_assocSet_self {α : Type} (d : List (String × α)) (nm : String) (v : α) :
    nm ∈ keysOf (assocSet d nm v) := by
  rw [assocSet]
  by_cases h : nm ∈ keysOf d
  · rw [if_pos h, keysOf_map_replace]; exact h
  · rw [if_neg h, keysOf_append]
    exact List.mem_append_right _ (by simp [keysOf])

/-- A write to a name already present changes no names. -/
theorem keysOf_assocSet_of_mem {α : Type} {d : List (String × α)} {nm : String}
    (v : α) (h : nm ∈ keysOf d) : keysOf (assocSet d nm v) = keysOf d := by
  rw [assocSet, if_pos h, keysOf_map_replace]

/-- A write to a fresh name appends the entry. -/
theorem assocSet_of_not_mem {α : Type} {d : List (String × α)} {nm : String}
    (v : α) (h : nm ∉ keysOf d) : assocSet d nm v = d ++ [(nm, v)] := by
  rw [assocSet, if_neg h]

/-- A write to a name already present creates no extra file. -/
theorem length_assocSet_of_mem {α : Type} {d : List (String × α)} {nm : String}
    (v : α) (h : nm ∈ keysOf d) : (assocSet d nm v).length = d.length := by
  rw [assocSet, if_pos h, List.length_map]

/-- Writes never remove other names. -/
theorem mem_keys_assocSet_of_mem {α : Type} {d : List (String × α)} {k : String}
    (nm : String) (v : α) (h : k ∈ keysOf d) : k ∈ keysOf (assocSet d nm v) := by
  rw [assocSet]
  by_cases hm : nm ∈ keysOf d
  · rw [if_pos hm, keysOf_map_replace]; exact h
  · rw [if_neg hm, keysOf_append]; exact List.mem_append_left _ h

/-- Writing over the single entry of a one-entry directory replaces it. -/
theorem assocSet_singleton_self {α : Type} (nm : String) (a b : α) :
    assocSet [(nm, a)] nm b = [(nm, b)] := by
  rw [assocSet, if_pos (by simp [keysOf])]
  show [(if nm = nm then (nm, b) else (nm, a))] = [(nm, b)]
  rw [if_pos rfl]

/-- Lookup skips a block of entries holding no occurrence of the name. -/
theorem findVal_append_of_not_mem {α : Type} (d l : List (String × α)) (nm : String)
    (h : nm ∉ keysOf d) : findVal (d ++ l) nm = findVal l nm := by
  induction d with
  | nil => rfl
  | cons e rest ih =>
    have hne : ¬ e.1 = nm := by
      intro hc
      exact h (by show nm ∈ e.1 :: keysOf rest; rw [hc]; exact List.mem_cons_self _ _)
    show (if e.1 = nm then some e.2 else findVal (rest ++ l) nm) = findVal l nm
    rw [if_neg hne]
    exact ih (fun hm => h (List.mem_cons_of_mem _ hm))

/-- Replacing the value at a present name makes lookup return the new value. -/
theorem findVal_map_replace_of_mem {α : Type} {d : List (String × α)} {nm : String}
    (v : α) (h : nm ∈ keysOf d) :
    findVal (d.map (fun e => if e.1 = nm then (nm, v) else e)) nm = some v := by
  induction d with
  | nil => exact absurd h (List.not_mem_nil nm)
  | cons e rest ih =>
    by_cases hc : e.1 = nm
    · show (if (if e.1 = nm then (nm, v) else e).1 = nm then
          some (if e.1 = nm then (nm, v) else e).2
        else findVal (rest.map (fun e => if e.1 = nm then (nm, v) else e)) nm) = some v
      rw [if_pos hc, if_pos rfl]
    · have hmem : nm ∈ keysOf rest := by
        rcases List.mem_cons.mp (show nm ∈ e.1 :: keysOf rest from h) with h1 | h2
        · exact absurd h1.symm hc
        · exact h2
      show (if (if e.1 = nm then (nm, v) else e).1 = nm then
          some (if e.1 = nm then (nm, v) else e).2
        else findVal (rest.map (fun e => if e.1 = nm then (nm, v) else e)) nm) = some v
      rw [if_neg hc, if_neg hc]
      exact ih hmem

/-- After a write, looking up the written name returns the written value. -/
theorem findVal_assocSet_self {α : Type} (d : List (String × α)) (nm : String) (v : α) :
    findVal (assocSet d nm v) nm = some v := by
  rw [assocSet]
  by_cases h : nm ∈ keysOf d
  · rw [if_pos h]; exact findVal_map_replace_of_mem v h
  · rw [if_neg h, findVal_append_of_not_mem d _ nm h]
    show (if nm = nm then some v else none) = some v
    rw [if_pos rfl]

/-- While every engine call succeeds, the loop is the fold of the per-file
step. -/
theorem runBatch_append_ok (engine : AFile → Except String String) (ts txt : AFile → String)
    (l r : List AFile) :
    ∀ st : St, (∀ f ∈ l, engine f = Except.ok (txt f)) →
      runBatch engine ts (l ++ r) st = runBatch engine ts r (procAll ts txt l st) := by
  induction l with
  | nil => intro st _; rfl
  | cons f rest ih =>
    intro st h
    have hf : engine f = Except.ok (txt f) := h f (List.mem_cons_self _ _)
    show (match engine f with
      | Except.error e => (st, some e)
      | Except.ok t => runBatch engine ts (rest ++ r) (processFile ts st f t)) = _
    rw [hf]
    exact ih (processFile ts st f (txt f)) (fun g hg => h g (List.mem_cons_of_mem _ hg))

/-- A failing engine call ends the run at once with the current state. -/
theorem runBatch_error_head (engine : AFile → Except String String) (ts : AFile → String)
    (fk : AFile) (l : List AFile) (st : St) (e : String)
    (he : engine fk = Except.error e) :
    runBatch engine ts (fk :: l) st = (st, some e) := by
  show (match engine fk with
    | Except.error e => (st, some e)
    | Except.ok t => runBatch engine ts l (processFile ts st fk t)) = (st, some e)
  rw [he]

/-- The loop removes exactly the processed files from the input directory. -/
theorem procAll_input (ts txt : AFile → String) :
    ∀ (l : List AFile) (st : St),
      (procAll ts txt l st).input = l.foldl (fun acc f => acc.erase f) st.input := by
  intro l
  induction l with
  | nil => intro st; rfl
  | cons f rest ih =>
    intro st
    show (procAll ts txt rest (processFile ts st f (txt f))).input = _
    rw [ih]
    rfl

/-- Erasing a run of files from the front of a directory listing, in order,
leaves the tail. -/
theorem foldl_erase_self :
    ∀ (l rest : List AFile), l.foldl (fun acc f => acc.erase f) (l ++ rest) = rest := by
  intro l
  induction l with
  | nil => intro rest; rfl
  | cons f t ih =>
    intro rest
    show t.foldl (fun acc g => acc.erase g) ((f :: (t ++ rest)).erase f) = rest
    rw [List.erase_cons_head]
    exact ih rest

/-- Archive effect of a successful run of files whose names are fresh for the
archive and mutually distinct: each lands under its own name, in order. -/
theorem procAll_hist (ts txt : AFile → String) :
    ∀ (l : List AFile) (st : St),
      (∀ f ∈ l, fname f ∉ keysOf st.hist) → (l.map fname).Nodup →
      (procAll ts txt l st).hist = st.hist ++ l.map (fun f => (fname f, f)) := by
  intro l
  induction l with
  | nil => intro st _ _; simp [procAll]
  | cons f rest ih =>
    intro st hk hnd
    have hf : fname f ∉ keysOf st.hist := hk f (List.mem_cons_self _ _)
    have hdest : historicalDest st.hist f (ts f) = fname f := by
      rw [historicalDest, if_neg hf]
    have hstep : (processFile ts st f (txt f)).hist = st.hist ++ [(fname f, f)] := by
      show assocSet st.hist (historicalDest st.hist f (ts f)) f = _
      rw [hdest, assocSet_of_not_mem f hf]
    have hkeys : keysOf (processFile ts st f (txt f)).hist
        = keysOf st.hist ++ [fname f] := by
      rw [hstep, keysOf_append]
      rfl
    have hfnotin : fname f ∉ rest.map fname := (List.nodup_cons.mp hnd).1
    have hnd2 : (rest.map fname).Nodup := (List.nodup_cons.mp hnd).2
    have hk2 : ∀ g ∈ rest, fname g ∉ keysOf (processFile ts st f (txt f)).hist := by
      intro g hg hmem
      rw [hkeys] at hmem
      rcases List.mem_append.mp hmem with h1 | h2
      · exact hk g (List.mem_cons_of_mem _ hg) h1
      · have hgf : fname g = fname f := List.mem_singleton.mp h2
        exact hfnotin (hgf ▸ List.mem_map_of_mem fname hg)
    show (procAll ts txt rest (processFile ts st f (txt f))).hist = _
    rw [ih (processFile ts st f (txt f)) hk2 hnd2, hstep, List.append_assoc]
    rfl

/-- The event log only grows along the loop. -/
theorem log_mono_procAll (ts txt : AFile → String) :
    ∀ (l : List AFile) (st : St) (e : Event), e ∈ st.log → e ∈ (procAll ts txt l st).log := by
  intro l
  induction l with
  | nil => intro st e he; exact he
  | cons f rest ih =>
    intro st e he
    exact ih (processFile ts st f (txt f)) e (List.mem_append_left _ he)

/-- Every processed file leaves its write event in the log. -/
theorem procAll_wrote_event (ts txt : AFile → String) :
    ∀ (l : List AFile) (st : St) (f : AFile), f ∈ l →
      Event.wrote f (f.stem ++ ".txt") ((txt f).trim) ∈ (procAll ts txt l st).log := by
  intro l
  induction l with
  | nil => intro st f hf; exact absurd hf (List.not_mem_nil f)
  | cons g rest ih =>
    intro st f hf
    rcases List.mem_cons.mp hf with rfl | h2
    · exact log_mono_procAll ts txt rest (processFile ts st f (txt f)) _
        (List.mem_append_right _ (List.mem_cons_self _ _))
    · exact ih (processFile ts st g (txt g)) f h2

/-- Conversely, a write event in the log comes from the initial log or from a
processed file. -/
theorem procAll_wrote_src (ts txt : AFile → String) :
    ∀ (l : List AFile) (st : St) (f : AFile) (nm t : String),
      Event.wrote f nm t ∈ (procAll ts txt l st).log →
      Event.wrote f nm t ∈ st.log ∨ f ∈ l := by
  intro l
  induction l with
  | nil => intro st f nm t h; exact Or.inl h
  | cons g rest ih =>
    intro st f nm t h
    rcases ih (processFile ts st g (txt g)) f nm t h with h1 | h2
    · rcases List.mem_append.mp h1 with ha | hb
      · exact Or.inl ha
      · rcases List.mem_cons.mp hb with hc | hd
        · have hfg : f = g := by injection hc with hfg _ _
          exact Or.inr (hfg ▸ List.mem_cons_self _ _)
        · rcases List.mem_cons.mp hd with he | hnil
          · exact Event.noConfusion he
          · exact absurd hnil (List.not_mem_nil _)
    · exact Or.inr (List.mem_cons_of_mem _ h2)

/-- Output names only accumulate along the loop. -/
theorem keys_mono_procAll (ts txt : AFile → String) :
    ∀ (l : List AFile) (st : St) (k : String),
      k ∈ keysOf st.outputs → k ∈ keysOf (procAll ts txt l st).outputs := by
  intro l
  induction l with
  | nil => intro st k hk; exact hk
  | cons f rest ih =>
    intro st k hk
    exact ih _ k (mem_keys_assocSet_of_mem _ _ hk)

/-- Every processed file leaves its output name in the output directory. -/
theorem procAll_output_key (ts txt : AFile → String) :
    ∀ (l : List AFile) (st : St) (f : AFile), f ∈ l →
      (f.stem ++ ".txt") ∈ keysOf (procAll ts txt l st).outputs := by
  intro l
  induction l with
  | nil => intro st f hf; exact absurd hf (List.not_mem_nil f)
  | cons g rest ih =>
    intro st f hf
    rcases List.mem_cons.mp hf with rfl | h2
    · exact keys_mono_procAll ts txt rest _ _ (mem_keys_assocSet_self _ _ _)
    · exact ih _ f h2

/-- C6: for every non-negative integer `s`, `format_time` returns minutes
`s / 60` and seconds `s % 60`, each zero-padded to width 2 (the seconds field
is exactly two characters) and joined by a colon, with minutes unbounded
above 59 (`format_time 6000 = "100:00"`); in particular
`format_time 125 = "02:05"` and `format_time 0 = "00:00"`. -/
theorem formatTimeSpec (s : Nat) :
    format_time s = pad2 (s / 60) ++ ":" ++ pad2 (s % 60)
    ∧ (pad2 (s % 60)).length = 2
    ∧ format_time 125 = "02:05"
    ∧ format_time 0 = "00:00"
    ∧ format_time 6000 = "100:00" := by
  refine ⟨rfl, ?_, by decide, by decide, by decide⟩
  exact pad2_length_of_lt_60 (s % 60) (Nat.mod_lt _ (by decide))

/-- C2 counterexample: for a file path that does not exist while the probe
also fails (ffprobe cannot open the file either), the fallback's
`file_path.stat()` raises `OSError` from inside the `except` handler, so the
duration probe does raise — the claim's "for every file path" fails. -/
theorem durationProbeRaisesOnMissing :
    get_audio_duration none none = Except.error "OSError" := rfl

/-- C2 (amended): for every file path whose size can be read (the `stat` call
succeeds), the duration probe never raises: any probe outcome yields a value,
and when the probe invocation failed the value is exactly
`size_in_bytes / (1024 * 1024) * 6.0`. -/
theorem durationFallbackExact (probe : Option ℚ) (size : Nat) :
    (∃ v, get_audio_duration probe (some size) = Except.ok v)
    ∧ get_audio_duration none (some size)
        = Except.ok ((size : ℚ) / (1024 * 1024) * 6) := by
  constructor
  · cases probe with
    | none => exact ⟨_, rfl⟩
    | some v => exact ⟨v, rfl⟩
  · rfl

/-- C3 counterexample: when the notification binary is absent,
`subprocess.run` raises `FileNotFoundError` and `notify` has no handler, so
the failure is not swallowed and aborts the run. -/
theorem notifyRaisesWithoutBinary :
    notify "Transcriptor" "No hay archivos de audio para procesar" true
      { osascriptPresent := false, exitCode := 0 }
      = Except.error "FileNotFoundError" := rfl

/-- C3 (amended): for every title, message and sound flag, a failure of the
notification command itself (any exit status, with output captured) is
swallowed by the Notifier; but if the notification binary is absent the
invocation raises and the error propagates out of `notify`. -/
theorem notifySwallowsWithBinary (title message : String) (sound : Bool) (code : Int) :
    notify title message sound { osascriptPresent := true, exitCode := code }
      = Except.ok () := rfl

/-- C4: for every positive estimate and every tick taken before the stop
signal fires, the rendered line is a bar line whose progress is exactly
`min(elapsed / estimated, 0.99)`, whose percentage is strictly below 100 and
whose filled-cell count is strictly below the bar width — even when elapsed
exceeds the estimate. -/
theorem progressCappedBelowFull (n idx : Nat) (est : ℚ) (hest : 0 < est) (hidx : idx < n) :
    ∃ pct fil,
      (show_progress_bar n est).1[idx]?
        = some (TickLine.bar (min ((idx : ℚ) / est) (99 / 100)) pct fil idx)
      ∧ pct < 100 ∧ fil < (bar_width : Int) := by
  have hline : (show_progress_bar n est).1[idx]? = some (tickLine idx est) := by
    show (progressLoop est n 0).1[idx]? = _
    rw [progressLoop_fst est n 0, List.getElem?_map, List.getElem?_range hidx]
    simp
  set p := min ((idx : ℚ) / est) (99 / 100) with hp
  have hp0 : 0 ≤ p := le_min (div_nonneg (Nat.cast_nonneg idx) hest.le) (by norm_num)
  have hp1 : p ≤ 99 / 100 := min_le_right _ _
  have htick : tickLine idx est
      = TickLine.bar p (pyInt (p * 100)) (pyInt ((bar_width : ℚ) * p)) idx := by
    rw [tickLine, if_pos hest]
  refine ⟨pyInt (p * 100), pyInt ((bar_width : ℚ) * p), ?_, ?_, ?_⟩
  · rw [hline, htick]
  · have h0 : 0 ≤ p * 100 := mul_nonneg hp0 (by norm_num)
    have hlt : p * 100 < ((100 : Int) : ℚ) := by push_cast; linarith
    rw [pyInt, if_pos h0]
    exact Int.floor_lt.mpr hlt
  · have hbw : ((bar_width : Nat) : ℚ) = 30 := by norm_num [bar_width]
    have hbwi : (((bar_width : Nat) : Int) : ℚ) = 30 := by norm_num [bar_width]
    have h0 : 0 ≤ (bar_width : ℚ) * p := mul_nonneg (by rw [hbw]; norm_num) hp0
    have hlt : (bar_width : ℚ) * p < ((bar_width : Int) : ℚ) := by
      rw [hbw, hbwi]; linarith
    rw [pyInt, if_pos h0]
    exact Int.floor_lt.mpr hlt

/-- C4 witness: six ticks against a 2-second estimate; at the fifth tick the
elapsed time exceeds the estimate and the percentage still stays below 100. -/
theorem progressCappedBelowFullWitness :
    ∃ pct fil,
      (show_progress_bar 6 (2 : ℚ)).1[(5 : Nat)]?
        = some (TickLine.bar (min (((5 : Nat) : ℚ) / 2) (99 / 100)) pct fil 5)
      ∧ pct < 100 ∧ fil < (bar_width : Int) :=
  progressCappedBelowFull 6 5 2 (by decide) (by decide)

/-- C7: when the stop signal fires, the single final line has a fully filled
bar of all 30 units and shows the true elapsed tick count, regardless of the
estimate, and `show_progress_bar` returns that tick count.  (The model's
output type carries exactly one `FinalLine`, matching the one write after the
loop.) -/
theorem finalLineSpec (ticks : Nat) (est : ℚ) :
    (show_progress_bar ticks est).2.1.filledCount = 30
    ∧ (show_progress_bar ticks est).2.1.timeShown = format_time ticks
    ∧ (show_progress_bar ticks est).2.2 = ticks := by
  have h := progressLoop_snd est ticks 0
  rw [Nat.zero_add] at h
  refine ⟨rfl, ?_, h⟩
  show format_time (progressLoop est ticks 0).2 = format_time ticks
  rw [h]

/-- C5 counterexample: the archive already holds `a.mp3` and
`a_20240101_120000.mp3`; moving another `a.mp3` at wall-clock timestamp
`20240101_120000` (a second collision within the same second) renames onto
the existing timestamped name, and the unconditional `shutil.move` replaces
that archived entry — so an archived file IS overwritten, refuting "no
archived file is ever overwritten". -/
theorem archiveOverwriteSameSecond :
    fname ({ stem := "a", suffix := ".mp3", size := 5 } : AFile)
        ∈ keysOf [("a.mp3", ({ stem := "a", suffix := ".mp3", size := 100 } : AFile)),
                  ("a_20240101_120000.mp3", { stem := "x", suffix := ".wav", size := 7 })]
    ∧ ("a_20240101_120000.mp3", ({ stem := "x", suffix := ".wav", size := 7 } : AFile))
        ∈ [("a.mp3", ({ stem := "a", suffix := ".mp3", size := 100 } : AFile)),
           ("a_20240101_120000.mp3", { stem := "x", suffix := ".wav", size := 7 })]
    ∧ ("a_20240101_120000.mp3", ({ stem := "x", suffix := ".wav", size := 7 } : AFile))
        ∉ moveToHistorical
            [("a.mp3", { stem := "a", suffix := ".mp3", size := 100 }),
             ("a_20240101_120000.mp3", { stem := "x", suffix := ".wav", size := 7 })]
            { stem := "a", suffix := ".mp3", size := 5 } "20240101_120000" := by
  decide

/-- C5 (amended): when a file of the same name already exists in the archive
and the timestamped name is not itself already taken (no second collision
within the same second), the move renames with the timestamp suffix and
appends: afterwards both the previously archived same-named file and the
moved file are present and no archived entry is overwritten. -/
theorem archiveRenameOnCollision (hist : List (String × AFile)) (f : AFile) (ts : String)
    (hcol : fname f ∈ keysOf hist)
    (hfree : (f.stem ++ "_" ++ ts ++ f.suffix) ∉ keysOf hist) :
    moveToHistorical hist f ts = hist ++ [(f.stem ++ "_" ++ ts ++ f.suffix, f)]
    ∧ fname f ∈ keysOf (moveToHistorical hist f ts)
    ∧ (f.stem ++ "_" ++ ts ++ f.suffix) ∈ keysOf (moveToHistorical hist f ts)
    ∧ ∀ e ∈ hist, e ∈ moveToHistorical hist f ts := by
  have hdest : historicalDest hist f ts = f.stem ++ "_" ++ ts ++ f.suffix := by
    rw [historicalDest, if_pos hcol]
  have heq : moveToHistorical hist f ts = hist ++ [(f.stem ++ "_" ++ ts ++ f.suffix, f)] := by
    rw [moveToHistorical, hdest, assocSet_of_not_mem f hfree]
  refine ⟨heq, ?_, ?_, ?_⟩
  · rw [heq, keysOf_append]; exact List.mem_append_left _ hcol
  · rw [heq, keysOf_append]; exact List.mem_append_right _ (by simp [keysOf])
  · intro e he; rw [heq]; exact List.mem_append_left _ he

/-- C5 witness: one archived `a.mp3`, a colliding move at a fresh timestamp;
the renamed copy is present afterwards. -/
theorem archiveRenameOnCollisionWitness :
    ("a_20240101_120000.mp3", ({ stem := "a", suffix := ".mp3", size := 5 } : AFile))
      ∈ moveToHistorical [("a.mp3", { stem := "a", suffix := ".mp3", size := 100 })]
          { stem := "a", suffix := ".mp3", size := 5 } "20240101_120000" := by
  have h := archiveRenameOnCollision
      [("a.mp3", { stem := "a", suffix := ".mp3", size := 100 })]
      { stem := "a", suffix := ".mp3", size := 5 } "20240101_120000"
      (by decide) (by decide)
  rw [h.1]
  decide

/-- C9: writing the transcription for the same base name again replaces the
existing `<stem>.txt` entry in place: the name list and the file count are
unchanged from the first write, the stored content is the second text
(stripped), and no duplicate output file appears. -/
theorem outputWriteIdempotent (d : List (String × String)) (f : AFile) (t1 t2 : String) :
    keysOf (writeTranscription (writeTranscription d f t1) f t2)
      = keysOf (writeTranscription d f t1)
    ∧ (writeTranscription (writeTranscription d f t1) f t2).length
      = (writeTranscription d f t1).length
    ∧ findVal (writeTranscription (writeTranscription d f t1) f t2) (f.stem ++ ".txt")
      = some t2.trim := by
  have hmem : (f.stem ++ ".txt") ∈ keysOf (writeTranscription d f t1) :=
    mem_keys_assocSet_self d (f.stem ++ ".txt") t1.trim
  exact ⟨keysOf_assocSet_of_mem t2.trim hmem, length_assocSet_of_mem t2.trim hmem,
    findVal_assocSet_self _ _ _⟩

/-- C1: when the engine succeeds on the files of `l₁` and raises on `fk`, the
orchestrator does not catch it: the run ends with that error; the input
directory still holds exactly `fk` and the later files; every file of `l₁`
has been archived under its own name and has its output name present in the
output directory with its write event logged; and no write event exists for
`fk` or any later file. -/
theorem batchFailureMidRun (engine : AFile → Except String String)
    (ts txt : AFile → String) (l₁ l₂ : List AFile) (fk : AFile) (e : String)
    (hok : ∀ f ∈ l₁, engine f = Except.ok (txt f))
    (herr : engine fk = Except.error e)
    (hnd : ((l₁ ++ fk :: l₂).map fname).Nodup) :
    let st0 : St := { input := l₁ ++ fk :: l₂, outputs := [], hist := [], log := [] }
    let r := runBatch engine ts (l₁ ++ fk :: l₂) st0
    r.2 = some e
    ∧ r.1.input = fk :: l₂
    ∧ r.1.hist = l₁.map (fun f => (fname f, f))
    ∧ (∀ f ∈ l₁, (f.stem ++ ".txt") ∈ keysOf r.1.outputs)
    ∧ (∀ f ∈ l₁, Event.wrote f (f.stem ++ ".txt") ((txt f).trim) ∈ r.1.log)
    ∧ (∀ f nm t, Event.wrote f nm t ∈ r.1.log → f ∈ l₁) := by
  intro st0 r
  have hr : r = (procAll ts txt l₁ st0, some e) := by
    show runBatch engine ts (l₁ ++ fk :: l₂) st0 = _
    rw [runBatch_append_ok engine ts txt l₁ (fk :: l₂) st0 hok]
    exact runBatch_error_head engine ts fk l₂ (procAll ts txt l₁ st0) e herr
  have hnd1 : (l₁.map fname).Nodup := by
    rw [List.map_append] at hnd
    exact hnd.of_append_left
  refine ⟨by rw [hr], ?_, ?_, ?_, ?_, ?_⟩
  · rw [hr]
    show (procAll ts txt l₁ st0).input = fk :: l₂
    rw [procAll_input]
    exact foldl_erase_self l₁ (fk :: l₂)
  · rw [hr]
    show (procAll ts txt l₁ st0).hist = _
    rw [procAll_hist ts txt l₁ st0 (fun f _ => List.not_mem_nil _) hnd1]
    rfl
  · intro f hf
    rw [hr]
    exact procAll_output_key ts txt l₁ st0 f hf
  · intro f hf
    rw [hr]
    exact procAll_wrote_event ts txt l₁ st0 f hf
  · intro f nm t hmem
    rw [hr] at hmem
    rcases procAll_wrote_src ts txt l₁ st0 f nm t hmem with h1 | h2
    · exact absurd h1 (List.not_mem_nil _)
    · exact h2

/-- C1 witness: three files, the engine raising on the second — the first is
fully processed, the second and third stay in the input directory. -/
theorem batchFailureMidRunWitness :
    let fa : AFile := { stem := "alpha", suffix := ".mp3", size := 1 }
    let fb : AFile := { stem := "beta", suffix := ".mp3", size := 2 }
    let fc : AFile := { stem := "gamma", suffix := ".mp3", size := 3 }
    let engine : AFile → Except String String :=
      fun f => if f.stem = "beta" then Except.error "boom" else Except.ok " hola mundo "
    let st0 : St := { input := [fa] ++ fb :: [fc], outputs := [], hist := [], log := [] }
    let r := runBatch engine (fun _ => "20240101_120000") ([fa] ++ fb :: [fc]) st0
    r.2 = some "boom"
    ∧ r.1.input = fb :: [fc]
    ∧ r.1.hist = [fa].map (fun f => (fname f, f))
    ∧ (∀ f ∈ [fa], (f.stem ++ ".txt") ∈ keysOf r.1.outputs)
    ∧ (∀ f ∈ [fa],
        Event.wrote f (f.stem ++ ".txt") (((fun _ => " hola mundo ") f : String).trim)
          ∈ r.1.log)
    ∧ (∀ f nm t, Event.wrote f nm t ∈ r.1.log → f ∈ [fa]) :=
  batchFailureMidRun
    (fun f => if f.stem = "beta" then Except.error "boom" else Except.ok " hola mundo ")
    (fun _ => "20240101_120000") (fun _ => " hola mundo ")
    [{ stem := "alpha", suffix := ".mp3", size := 1 }]
    [{ stem := "gamma", suffix := ".mp3", size := 3 }]
    { stem := "beta", suffix := ".mp3", size := 2 } "boom"
    (by decide) rfl (by decide)

/-- C8: with zero discovered files, `main` short-circuits: it returns the
"no files" state without error — the model is never loaded, no file event is
logged, exactly one "no files" notification fires, and the input directory is
untouched. -/
theorem emptyInputShortCircuit (dir : List AFile) (engine : AFile → Except String String)
    (ts : AFile → String) (h : discover dir = []) :
    runMain dir engine ts
      = ({ input := dir, outputs := [], hist := [], log := [Event.notifyNoFiles] }, none)
    ∧ Event.loadModel ∉ (runMain dir engine ts).1.log
    ∧ (∀ f nm t, Event.wrote f nm t ∉ (runMain dir engine ts).1.log)
    ∧ (runMain dir engine ts).1.log.count Event.notifyNoFiles = 1
    ∧ (runMain dir engine ts).2 = none := by
  have hm : runMain dir engine ts
      = ({ input := dir, outputs := [], hist := [], log := [Event.notifyNoFiles] }, none) := by
    unfold runMain
    rw [h]
    rfl
  refine ⟨hm, ?_, ?_, ?_, by rw [hm]⟩
  · rw [hm]
    show Event.loadModel ∉ [Event.notifyNoFiles]
    decide
  · intro f nm t
    rw [hm]
    intro hmem
    rcases List.mem_cons.mp hmem with h1 | h2
    · exact Event.noConfusion h1
    · exact List.not_mem_nil _ h2
  · rw [hm]
    show List.count Event.notifyNoFiles [Event.notifyNoFiles] = 1
    decide

/-- C8 witness: a directory holding only a `.txt` file — not a supported
extension, so discovery is empty and the run short-circuits. -/
theorem emptyInputShortCircuitWitness :
    runMain [{ stem := "readme", suffix := ".txt", size := 5 }]
        (fun _ => Except.error "never") (fun _ => "20240101_120000")
      = ({ input := [{ stem := "readme", suffix := ".txt", size := 5 }], outputs := [],
           hist := [], log := [Event.notifyNoFiles] }, none) :=
  (emptyInputShortCircuit [{ stem := "readme", suffix := ".txt", size := 5 }]
    (fun _ => Except.error "never") (fun _ => "20240101_120000") (by decide)).1

/-- C10: two batch files with equal stems but different extensions both map
to `<stem>.txt`; processing them in order (the discovery order, sorted by
name) leaves exactly one output file holding the later file's text, while
both originals are archived and the input directory is emptied. -/
theorem sameStemLaterWins (engine : AFile → Except String String) (ts : AFile → String)
    (f g : AFile) (tf tg : String)
    (hstem : f.stem = g.stem) (hname : fname f ≠ fname g)
    (hf : engine f = Except.ok tf) (hg : engine g = Except.ok tg) :
    let st0 : St := { input := [f, g], outputs := [], hist := [], log := [] }
    let r := runBatch engine ts [f, g] st0
    r.2 = none
    ∧ r.1.outputs = [(f.stem ++ ".txt", tg.trim)]
    ∧ keysOf r.1.hist = [fname f, fname g]
    ∧ r.1.input = [] := by
  intro st0 r
  have h1 : runBatch engine ts [f, g] st0
      = runBatch engine ts [g] (processFile ts st0 f tf) := by
    show (match engine f with
      | Except.error e => (st0, some e)
      | Except.ok t => runBatch engine ts [g] (processFile ts st0 f t)) = _
    rw [hf]
  have h2 : runBatch engine ts [g] (processFile ts st0 f tf)
      = (processFile ts (processFile ts st0 f tf) g tg, none) := by
    show (match engine g with
      | Except.error e => (processFile ts st0 f tf, some e)
      | Except.ok t =>
          runBatch engine ts [] (processFile ts (processFile ts st0 f tf) g t)) = _
    rw [hg]
    rfl
  set st1 := processFile ts st0 f tf with hst1def
  have hst1o : st1.outputs = [(f.stem ++ ".txt", tf.trim)] := by
    show assocSet [] (f.stem ++ ".txt") tf.trim = _
    rw [assocSet_of_not_mem _ (List.not_mem_nil _)]
    rfl
  have hst1h : st1.hist = [(fname f, f)] := by
    show assocSet ([] : List (String × AFile)) (historicalDest [] f (ts f)) f = _
    rw [show historicalDest ([] : List (String × AFile)) f (ts f) = fname f from by
      rw [historicalDest,
        if_neg (show fname f ∉ keysOf ([] : List (String × AFile)) from List.not_mem_nil _)]]
    rw [assocSet_of_not_mem _ (List.not_mem_nil _)]
    rfl
  have hst1i : st1.input = [g] := by
    show ([f, g] : List AFile).erase f = [g]
    rw [List.erase_cons_head]
  have hno : g.stem ++ ".txt" = f.stem ++ ".txt" := by rw [hstem]
  have hout2 : (processFile ts st1 g tg).outputs = [(f.stem ++ ".txt", tg.trim)] := by
    show assocSet st1.outputs (g.stem ++ ".txt") tg.trim = _
    rw [hst1o, hno, assocSet_singleton_self]
  have hgnot : fname g ∉ keysOf st1.hist := by
    rw [hst1h]
    intro hmem
    have hgf : fname g = fname f := by simpa [keysOf] using hmem
    exact hname hgf.symm
  have hhist2 : (processFile ts st1 g tg).hist = [(fname f, f), (fname g, g)] := by
    show assocSet st1.hist (historicalDest st1.hist g (ts g)) g = _
    rw [show historicalDest st1.hist g (ts g) = fname g from by
      rw [historicalDest, if_neg hgnot]]
    rw [assocSet_of_not_mem _ hgnot, hst1h]
    rfl
  have hin2 : (processFile ts st1 g tg).input = [] := by
    show st1.input.erase g = []
    rw [hst1i, List.erase_cons_head]
  refine ⟨?_, ?_, ?_, ?_⟩
  · show (runBatch engine ts [f, g] st0).2 = none
    rw [h1, h2]
  · show (runBatch engine ts [f, g] st0).1.outputs = _
    rw [h1, h2]
    exact hout2
  · show keysOf (runBatch engine ts [f, g] st0).1.hist = _
    rw [h1, h2]
    show keysOf (processFile ts st1 g tg).hist = _
    rw [hhist2]
    rfl
  · show (runBatch engine ts [f, g] st0).1.input = []
    rw [h1, h2]
    exact hin2

/-- C10 witness: `a.mp3` then `a.wav` (their sorted order); the single output
`a.txt` holds the stripped text of the later `a.wav`, and both originals are
archived. -/
theorem sameStemLaterWinsWitness :
    let f : AFile := { stem := "a", suffix := ".mp3", size := 1 }
    let g : AFile := { stem := "a", suffix := ".wav", size := 2 }
    let engine : AFile → Except String String :=
      fun x => if x.suffix = ".wav" then Except.ok "  segunda  " else Except.ok "primera"
    let st0 : St := { input := [f, g], outputs := [], hist := [], log := [] }
    let r := runBatch engine (fun _ => "20240101_120000") [f, g] st0
    r.2 = none
    ∧ r.1.outputs = [(f.stem ++ ".txt", ("  segunda  " : String).trim)]
    ∧ keysOf r.1.hist = [fname f, fname g]
    ∧ r.1.input = [] :=
  sameStemLaterWins
    (fun x => if x.suffix = ".wav" then Except.ok "  segunda  " else Except.ok "primera")
    (fun _ => "20240101_120000")
    { stem := "a", suffix := ".mp3", size := 1 }
    { stem := "a", suffix := ".wav", size := 2 }
    "primera" "  segunda  " rfl (by decide) rfl rfl

end Transcribe
